import Mathlib

/-!
# Verification of the xreq option-composition and request-assembly layer

Shallow embedding of `options.go` (package `xreq`): the functional-options
builder (`Option`, `Options`), the body materializer (`setBody`), the query
serialization used at dispatch time (`url.Values.Encode` / `url.ParseQuery`
from the platform library, which the code calls), and the client dispatch
functions (`Client.do`, `Client.Do`, `Client.DoBytes`, `Client.Post`,
`Client.PostBytes`).

Go strings are modelled as byte lists (`ByteStr`); machine integers are
`Nat`/`Int` (Go's `bytes.Reader.Len` clamps at zero, which `Nat`
subtraction models exactly).  Side-effecting Go code (options mutating the
`*Options` context through a pointer) is modelled by explicit state
passing: an option is a function `OptionsCtx → OptionsCtx`, and the
pipeline threads the context left to right exactly as the `for` loop in
`Client.do` does, including its early return when an option has recorded
an error.
-/

namespace Xreq

/-- A Go string / byte slice: a list of bytes (each `< 256` for well-formed
Go data; bounds are carried as hypotheses where proofs need them). -/
abbrev ByteStr := List Nat

/-! ## Percent-encoding (`net/url.QueryEscape` / `QueryUnescape`)

`url.Values.Encode` (called at `options.go:1035` via `opts.Values.Encode()`)
escapes keys and values with `QueryEscape`; `req.URL.Query()` (called at
`options.go:1025`) parses with `ParseQuery`, which unescapes with
`QueryUnescape`.  These are embedded byte-for-byte from `net/url`'s
`shouldEscape`/`escape`/`unescape` in query-component mode. -/

/-- `net/url.shouldEscape(c, encodeQueryComponent) = false`: ASCII
alphanumerics and `-`, `_`, `.`, `~` are left unescaped. -/
def isUnreserved (b : Nat) : Bool :=
  (65 ≤ b && b ≤ 90) || (97 ≤ b && b ≤ 122) || (48 ≤ b && b ≤ 57) ||
    b == 45 || b == 95 || b == 46 || b == 126

/-- Upper-case hex digit of a nibble, as in `net/url`'s `upperhex` table. -/
def hexDigit (n : Nat) : Nat :=
  if n < 10 then 48 + n else 55 + n

/-- Escape one byte in query-component mode: unreserved bytes kept, space
becomes `+` (43), everything else becomes `%XX`. -/
def escByte (b : Nat) : ByteStr :=
  if isUnreserved b then [b]
  else if b = 32 then [43]
  else [37, hexDigit (b / 16), hexDigit (b % 16)]

/-- `net/url.QueryEscape`, applied byte-wise. -/
def queryEscape : ByteStr → ByteStr
  | [] => []
  | b :: rest => escByte b ++ queryEscape rest

/-- Value of one hex digit byte (upper or lower case), `none` otherwise,
as in `net/url.unhex`/`ishex`. -/
def hexVal (c : Nat) : Option Nat :=
  if 48 ≤ c ∧ c ≤ 57 then some (c - 48)
  else if 65 ≤ c ∧ c ≤ 70 then some (c - 55)
  else if 97 ≤ c ∧ c ≤ 102 then some (c - 87)
  else none

/-- Decode the two hex-digit bytes of a `%XX` escape and prepend the byte
to the decoded tail; `none` on a non-hex digit (`EscapeError`). -/
def pctDecode (h l : Nat) (tail : Option ByteStr) : Option ByteStr :=
  match hexVal h, hexVal l with
  | some hv, some lv => tail.map (fun s => (16 * hv + lv) :: s)
  | _, _ => none

/-- `net/url.QueryUnescape`: `+` becomes space, `%XX` decodes a byte (a `%`
not followed by two hex digits is an `EscapeError`, modelled as `none`),
every other byte is literal. -/
def queryUnescape : ByteStr → Option ByteStr
  | [] => some []
  | c :: rest =>
    if c = 37 then
      match rest with
      | h :: l :: t => pctDecode h l (queryUnescape t)
      | _ => none
    else if c = 43 then (queryUnescape rest).map (fun s => 32 :: s)
    else (queryUnescape rest).map (fun s => c :: s)

/-! ## `url.Values`

`url.Values` is `map[string][]string`; modelled as an association list
whose operational invariants (key uniqueness) are carried as hypotheses.
Go map iteration order is irrelevant here because `Encode` sorts keys. -/

/-- The `url.Values` map: keys paired with their value slices. -/
abbrev Values := List (ByteStr × List ByteStr)

/-- Keys of a `Values` map. -/
def keysOf (v : Values) : List ByteStr := v.map Prod.fst

/-- `url.Values.Set`: replace the key's slice with the one-element slice. -/
def valuesSet (k val : ByteStr) : Values → Values
  | [] => [(k, [val])]
  | (k', vs) :: rest =>
    if k' = k then (k, [val]) :: rest else (k', vs) :: valuesSet k val rest

/-- `m[key] = append(m[key], value)` as performed by `url.ParseQuery`. -/
def addVal (k val : ByteStr) : Values → Values
  | [] => [(k, [val])]
  | (k', vs) :: rest =>
    if k' = k then (k', vs ++ [val]) :: rest else (k', vs) :: addVal k val rest

/-- Map lookup: the value slice stored at a key. -/
def lookupVals (k : ByteStr) : Values → Option (List ByteStr)
  | [] => none
  | (k', vs) :: rest => if k' = k then some vs else lookupVals k rest

/-- Byte-wise lexicographic order on keys, as `sort.Strings` uses. -/
def keyLe : ByteStr → ByteStr → Bool
  | [], _ => true
  | _ :: _, [] => false
  | a :: as, b :: bs => if a < b then true else if b < a then false else keyLe as bs

/-- Insert an entry into a key-sorted list (helper of `sortByKey`). -/
def insertByKey (e : ByteStr × List ByteStr) : Values → Values
  | [] => [e]
  | f :: rest => if keyLe e.1 f.1 then e :: f :: rest else f :: insertByKey e rest

/-- The key sort performed by `url.Values.Encode` (`sort.Strings(keys)`). -/
def sortByKey : Values → Values
  | [] => []
  | e :: rest => insertByKey e (sortByKey rest)

/-- The `k=v` segments one entry contributes to the encoded query. -/
def entrySegs (e : ByteStr × List ByteStr) : List ByteStr :=
  e.2.map (fun v => queryEscape e.1 ++ 61 :: queryEscape v)

/-- All segments of a `Values` list, in order. -/
def allSegs : Values → List ByteStr
  | [] => []
  | e :: rest => entrySegs e ++ allSegs rest

/-- Join segments with `&` (byte 38), as `Values.Encode`'s builder does. -/
def joinAmp : List ByteStr → ByteStr
  | [] => []
  | [s] => s
  | s :: rest => s ++ 38 :: joinAmp rest

/-- `url.Values.Encode`: sort keys, escape keys and values, join `k=v`
segments with `&`. -/
def valuesEncode (v : Values) : ByteStr :=
  joinAmp (allSegs (sortByKey v))

/-- `strings.Cut(s, sep)` for a one-byte separator: bytes before the first
occurrence, and the remainder after it (empty when absent). -/
def cutByte (sep : Nat) (s : ByteStr) : ByteStr × ByteStr :=
  let pre := s.takeWhile (fun b => b != sep)
  (pre, s.drop (pre.length + 1))

/-- The segments `ParseQuery`'s `strings.Cut(query, "&")` loop visits. -/
def splitAmp (s : ByteStr) : List ByteStr :=
  if h : s = [] then []
  else
    let pre := s.takeWhile (fun b => b != 38)
    pre :: splitAmp (s.drop (pre.length + 1))
termination_by s.length
decreasing_by
  simp only [List.length_drop]
  exact Nat.sub_lt (List.length_pos.mpr h) (Nat.succ_pos _)

/-- One iteration of `url.ParseQuery`'s loop body on a segment: reject
segments containing `;` (59), skip empty segments, cut at the first `=`
(61), unescape key and value (skipping the pair on an escape error), and
append the value to the key's slice. -/
def parseStep (acc : Values) (seg : ByteStr) : Values :=
  if 59 ∈ seg then acc
  else if seg = [] then acc
  else
    let (k, v) := cutByte 61 seg
    match queryUnescape k, queryUnescape v with
    | some k', some v' => addVal k' v' acc
    | _, _ => acc

/-- `url.ParseQuery`, as used by `req.URL.Query()` at `options.go:1025`
(parse errors are discarded there). -/
def parseQuery (s : ByteStr) : Values :=
  (splitAmp s).foldl parseStep []

/-! ## Requests and body sources -/

/-- The components of `url.URL` the claims touch; everything except the
raw query is opaque payload. -/
structure URL where
  scheme : String
  host : String
  path : String
  rawQuery : ByteStr
deriving DecidableEq, Repr

/-- A `bytes.Reader` / `strings.Reader` value: backing bytes plus read
cursor.  Copying the structure value-copies the cursor, exactly as
`snapshot := *v` does in `setBody`. -/
structure ByteReader where
  data : ByteStr
  pos : Nat
deriving DecidableEq, Repr

/-- Bytes a reader will still yield: `r.s[r.i:]`. -/
def readerRemaining (r : ByteReader) : ByteStr := r.data.drop r.pos

/-- `bytes.Reader.Len` / `strings.Reader.Len`: remaining byte count,
clamped at zero (`Nat` subtraction). -/
def readerLen (r : ByteReader) : Nat := r.data.length - r.pos

/-- The dynamic type of an `io.Reader` handed to `setBody`: the three
buffered kinds it switches on, or any other stream (opaque tag plus the
bytes it would yield, which `setBody` never inspects). -/
inductive BodySrc where
  | buffer (unread : ByteStr)
  | bytesReader (r : ByteReader)
  | stringsReader (r : ByteReader)
  | generic (tag : Nat) (content : ByteStr)
deriving DecidableEq, Repr

/-- The fields of `http.Request` the claims touch.  `getBody` is the
`GetBody` replay hook: `some r` means each invocation produces a fresh
reader equal to the value `r` (the Go closures return a new reader built
from the captured snapshot on every call). -/
structure Request where
  method : String
  url : URL
  header : List (String × String)
  body : Option BodySrc
  contentLength : Int
  getBody : Option ByteReader
deriving DecidableEq, Repr

/-- `http.Header.Set`: replace the key's value (single-valued model; the
claims only use `Set`). -/
def headerSet (k v : String) : List (String × String) → List (String × String)
  | [] => [(k, v)]
  | (k', v') :: rest =>
    if k' = k then (k, v) :: rest else (k', v') :: headerSet k v rest

/-- Header lookup. -/
def headerGet (k : String) : List (String × String) → Option String
  | [] => none
  | (k', v') :: rest => if k' = k then some v' else headerGet k rest

/-- `http.NewRequestWithContext(ctx, "GET", url, nil)` as built at
`options.go:1019`: method GET, empty header, nil body, content length 0,
no `GetBody`. -/
def newRequest (u : URL) : Request :=
  { method := "GET", url := u, header := [], body := none
    contentLength := 0, getBody := none }

/-- `setBody` (`options.go:85-117`): attach the reader as the body
(`ioutil.NopCloser` wrapping), then switch on its dynamic type.  The three
buffered kinds set `ContentLength` to the reader's remaining length and
install a `GetBody` snapshot; the default branch deliberately leaves
`ContentLength` and `GetBody` untouched (see the Go 1.8 comment in the
source). -/
def setBody (req : Request) (body : BodySrc) : Request :=
  let base := { req with body := some body }
  match body with
  | .buffer unread =>
    { base with contentLength := (unread.length : Int), getBody := some ⟨unread, 0⟩ }
  | .bytesReader r =>
    { base with contentLength := (readerLen r : Int), getBody := some r }
  | .stringsReader r =>
    { base with contentLength := (readerLen r : Int), getBody := some r }
  | .generic _ _ => base

/-! ## Errors, options context, options -/

/-- Go `error` values the layer produces or passes through.  Wrapping
constructors embed the `fmt.Errorf("...: %w", err)` calls of the source;
`external` and `transport` are opaque error values from collaborators. -/
inductive GoErr where
  | external (tag : Nat)
  | transport (tag : Nat)
  | jsonMarshal (cause : GoErr)
  | optionExec (cause : GoErr)
  | newRequest (cause : GoErr)
  | readBody (cause : GoErr)
  | statusCode (code : Nat)
deriving DecidableEq, Repr

/-- The `Error()` string of each error embedding, from the `fmt.Errorf`
format strings in the source. -/
def errMessage : GoErr → String
  | .external tag => "external error " ++ toString tag
  | .transport tag => "transport error " ++ toString tag
  | .jsonMarshal cause => "json marshal error: " ++ errMessage cause
  | .optionExec cause => "option exec error: " ++ errMessage cause
  | .newRequest cause => "new request error: " ++ errMessage cause
  | .readBody cause => "read body error: " ++ errMessage cause
  | .statusCode code => "http status code: " ++ toString code

/-- The `Options` construction context (`options.go:20-27`). -/
structure OptionsCtx where
  request : Request
  err : Option GoErr
  values : Values
  checkStatus : Bool
deriving DecidableEq, Repr

/-- An `Option`: a function mutating the context (state-passing model of
`func(o *Options)`). -/
abbrev Opt := OptionsCtx → OptionsCtx

/-- `WithMethod`. -/
def withMethod (m : String) : Opt := fun o =>
  { o with request := { o.request with method := m } }

/-- `WithSetHeader`. -/
def withSetHeader (k v : String) : Opt := fun o =>
  { o with request := { o.request with header := headerSet k v o.request.header } }

/-- `WithBodyReader`: set `Content-Type`, then `setBody`. -/
def withBodyReader (contentType : String) (body : BodySrc) : Opt := fun o =>
  let req := { o.request with header := headerSet "Content-Type" contentType o.request.header }
  { o with request := setBody req body }

/-- `WithBodyBytes`: `WithBodyReader` on `bytes.NewBuffer(data)`. -/
def withBodyBytes (contentType : String) (data : ByteStr) : Opt :=
  withBodyReader contentType (.buffer data)

/-- `WithQuery`: `Set` every pair of the map (list model of the Go map;
`Encode` sorting makes iteration order irrelevant). -/
def withQuery (params : List (ByteStr × ByteStr)) : Opt := fun o =>
  { o with values := params.foldl (fun v p => valuesSet p.1 p.2 v) o.values }

/-- `WithQueryValue`. -/
def withQueryValue (k v : ByteStr) : Opt := fun o =>
  { o with values := valuesSet k v o.values }

/-- `WithPostJSON` (`options.go:157-170`).  `json.Marshal v` is platform
code; the option's behaviour depends only on its outcome, passed here as
`marshalResult`.  On failure it records the wrapped error and returns; on
success it sets method POST, `Content-Type: application/json`, and
attaches the bytes through `setBody` on a `bytes.Buffer`. -/
def withPostJSON (marshalResult : Except GoErr ByteStr) : Opt := fun o =>
  match marshalResult with
  | .error e => { o with err := some (.jsonMarshal e) }
  | .ok data =>
    let req := { o.request with method := "POST" }
    let req := { req with header := headerSet "Content-Type" "application/json" req.header }
    { o with request := setBody req (.buffer data) }

/-- `WithRequest`: replace the request wholesale (the `Values` map and the
other context fields are untouched). -/
def withRequest (r : Request) : Opt := fun o =>
  { o with request := r }

/-- `WithCheckStatus`. -/
def withCheckStatus (check : Bool) : Opt := fun o =>
  { o with checkStatus := check }

/-! ## Client dispatch (`Client.do`, `Do`, `DoBytes`, `Post`, `PostBytes`) -/

/-- A drained HTTP response as `DoBytes` observes it: status code, the
bytes `ioutil.ReadAll` returned, and the read error if draining failed
(opaque tag). -/
structure Response where
  statusCode : Nat
  bodyData : ByteStr
  readErr : Option Nat
deriving DecidableEq, Repr

/-- The platform transport `c.hc.Do`: either an opaque transport error or
a response. -/
abbrev Transport := Request → Except Nat Response

/-- A `Client`: the baseline options fixed at construction
(`NewClient`'s `opt`). -/
structure Client where
  baseline : List Opt

/-- The option loop of `Client.do` (`options.go:1029-1034`): apply each
option in order; after each application, if the error slot is non-empty,
return at once with the wrapped error.  The final context state is
returned alongside (in Go the caller holds the pointer), so that which
mutations happened is observable even on the error path. -/
def runOpts (ctx : OptionsCtx) : List Opt → OptionsCtx × Option GoErr
  | [] => (ctx, none)
  | o :: rest =>
    let c2 := o ctx
    match c2.err with
    | some e => (c2, some (.optionExec e))
    | none => runOpts c2 rest

/-- Plain sequential application of options, with no error check: the
reference fold the pipeline is compared against. -/
def applyAll (ctx : OptionsCtx) (l : List Opt) : OptionsCtx :=
  l.foldl (fun c o => o c) ctx

/-- The fresh context `Client.do` builds (`options.go:1024-1026`): the
base GET request, `Values` parsed from the URL's query, flag off. -/
def initCtx (u : URL) : OptionsCtx :=
  { request := newRequest u, err := none
    values := parseQuery u.rawQuery, checkStatus := false }

/-- `opts.Request.URL.RawQuery = opts.Values.Encode()` (`options.go:1035`). -/
def finalize (ctx : OptionsCtx) : Request :=
  { ctx.request with url := { ctx.request.url with rawQuery := valuesEncode ctx.values } }

/-- Outcome of `Client.do`: failed before dispatch (no network I/O), or
dispatched a finalized request to the transport. -/
inductive DoOutcome where
  | failed (e : GoErr)
  | dispatched (ctx : OptionsCtx) (req : Request) (result : Except Nat Response)

/-- `Client.do` (`options.go:1018-1038`) for an already-parsed URL: build
the context, run baseline then call-site options, fail on a recorded
error, otherwise write the encoded values onto the URL and dispatch. -/
def clientDo (c : Client) (tr : Transport) (u : URL) (opt : List Opt) : DoOutcome :=
  match runOpts (initCtx u) (c.baseline ++ opt) with
  | (_, some e) => .failed e
  | (ctx, none) =>
    let req := finalize ctx
    .dispatched ctx req (tr req)

/-- The dispatched request, when dispatch happened. -/
def dispatchedReq : DoOutcome → Option Request
  | .failed _ => none
  | .dispatched _ req _ => some req

/-- `Client.Do` (`options.go:979-994`): pass the response or the error
through unchanged (no status inspection — see the commented-out block in
the source). -/
def clientDoResp (c : Client) (tr : Transport) (u : URL) (opt : List Opt) :
    Except GoErr Response :=
  match clientDo c tr u opt with
  | .failed e => .error e
  | .dispatched _ _ result => result.mapError GoErr.transport

/-- `Client.DoBytes` (`options.go:998-1016`): on a construction or
transport error return `(nil, 0, err)`; otherwise drain the body, wrap a
read error, and only then — if the flag is set and the code is not 200 —
replace the nil error with the status error, returning data and code in
every drained case. -/
def clientDoBytes (c : Client) (tr : Transport) (u : URL) (opt : List Opt) :
    ByteStr × Nat × Option GoErr :=
  match clientDo c tr u opt with
  | .failed e => ([], 0, some e)
  | .dispatched ctx _ result =>
    match result with
    | .error te => ([], 0, some (.transport te))
    | .ok resp =>
      match resp.readErr with
      | some tag => (resp.bodyData, resp.statusCode, some (.readBody (.external tag)))
      | none =>
        if ctx.checkStatus && resp.statusCode != 200 then
          (resp.bodyData, resp.statusCode, some (.statusCode resp.statusCode))
        else
          (resp.bodyData, resp.statusCode, none)

/-- `Client.Post` (`options.go:952-958`): build `ropt` with the method
override and body attach ahead of the caller's options, delegate to `Do`. -/
def clientPost (c : Client) (tr : Transport) (u : URL) (contentType : String)
    (body : BodySrc) (opt : List Opt) : Except GoErr Response :=
  let ropt := withMethod "POST" :: withBodyReader contentType body :: opt
  clientDoResp c tr u ropt

/-- `Client.PostBytes` (`options.go:964-970`): same prepend, delegate to
`DoBytes`. -/
def clientPostBytes (c : Client) (tr : Transport) (u : URL) (contentType : String)
    (body : BodySrc) (opt : List Opt) : ByteStr × Nat × Option GoErr :=
  let ropt := withMethod "POST" :: withBodyReader contentType body :: opt
  clientDoBytes c tr u ropt

/-- Is this error value a status error? -/
def isStatusErr : GoErr → Bool
  | .statusCode _ => true
  | _ => false

/-- `net/http`'s reading of `Request.ContentLength` for client requests:
`-1` means unknown, and `0` with a non-nil body is also treated as
unknown. -/
def lengthUnknown (req : Request) : Prop :=
  req.contentLength = -1 ∨ (req.contentLength = 0 ∧ req.body ≠ none)

/-- A concrete URL for instantiating theorems on sample inputs. -/
def sampleURL : URL :=
  { scheme := "http", host := "localhost:8080", path := "/query_params", rawQuery := [] }

/-! ## Pipeline lemmas -/

/-- If a prefix of the option list runs without recording an error, the
pipeline continues from the state the prefix produced. -/
theorem runOpts_append_ok : ∀ (p : List Opt) (ctx : OptionsCtx) (rest : List Opt),
    (runOpts ctx p).2 = none → runOpts ctx (p ++ rest) = runOpts (runOpts ctx p).1 rest
  | [], _, _, _ => rfl
  | o :: p, ctx, rest, h => by
    simp only [runOpts] at h ⊢
    cases he : (o ctx).err with
    | some e => rw [he] at h; exact Option.noConfusion h
    | none => rw [he] at h; exact runOpts_append_ok p (o ctx) rest h

/-- A pipeline that records no error is exactly the plain left fold of the
options over the context. -/
theorem runOpts_ok_eq : ∀ (l : List Opt) (ctx : OptionsCtx),
    (runOpts ctx l).2 = none → runOpts ctx l = (applyAll ctx l, none)
  | [], _, _ => rfl
  | o :: l, ctx, h => by
    simp only [runOpts] at h ⊢
    cases he : (o ctx).err with
    | some e => rw [he] at h; exact Option.noConfusion h
    | none => rw [he] at h; exact runOpts_ok_eq l (o ctx) h

/-- Any error the pipeline surfaces is an option-execution wrapper around
the recorded cause. -/
theorem runOpts_err_wrapped : ∀ (l : List Opt) (ctx : OptionsCtx) (w : GoErr),
    (runOpts ctx l).2 = some w → ∃ e, w = GoErr.optionExec e
  | [], _, _, h => by simp [runOpts] at h
  | o :: l, ctx, w, h => by
    simp only [runOpts] at h
    cases he : (o ctx).err with
    | some e =>
      rw [he] at h
      exact ⟨e, (Option.some_inj.mp h).symm⟩
    | none =>
      rw [he] at h
      exact runOpts_err_wrapped l (o ctx) w h

/-- `Set` followed by lookup of the same header key yields the new value. -/
theorem headerGet_set (k v : String) : ∀ h, headerGet k (headerSet k v h) = some v
  | [] => by simp [headerSet, headerGet]
  | (k', v') :: rest => by
    by_cases hk : k' = k
    · simp [headerSet, headerGet, hk]
    · simp only [headerSet, headerGet, hk, if_neg hk, if_false]
      exact headerGet_set k v rest

/-- Running a block of `WithQueryValue` options folds `Set` over the
values map and records no error. -/
theorem runOpts_qvs_then :
    ∀ (qs : List (ByteStr × ByteStr)) (rest : List Opt) (ctx : OptionsCtx),
    ctx.err = none →
    runOpts ctx ((qs.map fun p => withQueryValue p.1 p.2) ++ rest) =
      runOpts { ctx with values := qs.foldl (fun v p => valuesSet p.1 p.2 v) ctx.values } rest
  | [], _, _, _ => rfl
  | q :: qs, rest, ctx, h => by
    simp only [List.map, List.cons_append, runOpts]
    have he : (withQueryValue q.1 q.2 ctx).err = none := h
    rw [he]
    exact runOpts_qvs_then qs rest (withQueryValue q.1 q.2 ctx) he

/-- Non-append form of `runOpts_qvs_then`. -/
theorem runOpts_qvs (qs : List (ByteStr × ByteStr)) (ctx : OptionsCtx) (h : ctx.err = none) :
    runOpts ctx (qs.map fun p => withQueryValue p.1 p.2) =
      ({ ctx with values := qs.foldl (fun v p => valuesSet p.1 p.2 v) ctx.values }, none) := by
  have := runOpts_qvs_then qs [] ctx h
  rwa [List.append_nil] at this

/-- A `WithRequest` option replaces the request and records no error. -/
theorem runOpts_withRequest (r : Request) (rest : List Opt) (ctx : OptionsCtx)
    (h : ctx.err = none) :
    runOpts ctx (withRequest r :: rest) = runOpts { ctx with request := r } rest := by
  simp only [runOpts]
  have he : (withRequest r ctx).err = none := h
  rw [he]
  rfl

/-- If `do` failed before dispatch, the pipeline surfaced that error. -/
theorem clientDo_failed_err (c : Client) (tr : Transport) (u : URL) (opt : List Opt)
    (w : GoErr) (h : clientDo c tr u opt = .failed w) :
    (runOpts (initCtx u) (c.baseline ++ opt)).2 = some w := by
  unfold clientDo at h
  cases hres : runOpts (initCtx u) (c.baseline ++ opt) with
  | mk ctx eo =>
    rw [hres] at h
    cases eo with
    | none => exact DoOutcome.noConfusion h
    | some w' => cases h; rfl

/-! ## Query encoding lemmas (for the round-trip claim) -/

/-- Hex digit bytes are never the separators `&` (38), `;` (59), `=` (61). -/
theorem hexDigit_ne_sep (n : Nat) :
    hexDigit n ≠ 38 ∧ hexDigit n ≠ 59 ∧ hexDigit n ≠ 61 := by
  unfold hexDigit
  split <;> omega

/-- Escaped bytes never contain the separators `&`, `;`, `=`. -/
theorem escByte_ne_sep (b : Nat) : ∀ x ∈ escByte b, x ≠ 38 ∧ x ≠ 59 ∧ x ≠ 61 := by
  intro x hx
  unfold escByte at hx
  split at hx
  · next h1 =>
    simp only [List.mem_singleton] at hx
    subst hx
    refine ⟨?_, ?_, ?_⟩ <;> rintro rfl <;> simp [isUnreserved] at h1
  · split at hx
    · simp only [List.mem_singleton] at hx
      omega
    · simp only [List.mem_cons, List.mem_singleton, List.not_mem_nil, or_false] at hx
      rcases hx with rfl | rfl | rfl
      · omega
      · exact hexDigit_ne_sep _
      · exact hexDigit_ne_sep _

/-- Whole escaped strings never contain the separators `&`, `;`, `=`. -/
theorem queryEscape_ne_sep : ∀ (s : ByteStr), ∀ x ∈ queryEscape s,
    x ≠ 38 ∧ x ≠ 59 ∧ x ≠ 61
  | [] => by intro x hx; simp [queryEscape] at hx
  | b :: s => by
    intro x hx
    rw [queryEscape] at hx
    rcases List.mem_append.mp hx with h | h
    · exact escByte_ne_sep b x h
    · exact queryEscape_ne_sep s x h

/-- Unescaping recovers a nibble's hex digit. -/
theorem hexVal_hexDigit (n : Nat) (h : n < 16) : hexVal (hexDigit n) = some n := by
  unfold hexVal hexDigit
  split <;> split_ifs <;> (congr 1; omega)

/-- Unfolding lemma for `queryUnescape` on a nonempty string. -/
theorem queryUnescape_cons (c : Nat) (rest : ByteStr) :
    queryUnescape (c :: rest) =
      if c = 37 then
        match rest with
        | h :: l :: t => pctDecode h l (queryUnescape t)
        | _ => none
      else if c = 43 then (queryUnescape rest).map (fun s => 32 :: s)
      else (queryUnescape rest).map (fun s => c :: s) := by
  rw [queryUnescape.eq_def]
  rfl

/-- Evaluation of `pctDecode` on two valid hex digits. -/
theorem pctDecode_eq (h l hv lv : Nat) (tail : Option ByteStr)
    (hh : hexVal h = some hv) (hl : hexVal l = some lv) :
    pctDecode h l tail = tail.map (fun s => (16 * hv + lv) :: s) := by
  unfold pctDecode
  rw [hh, hl]

/-- Unescaping an escaped byte prepends it to whatever the tail unescapes
to. -/
theorem unescape_escByte (b : Nat) (hb : b < 256) (rest : ByteStr) :
    queryUnescape (escByte b ++ rest) = (queryUnescape rest).map (fun s => b :: s) := by
  unfold escByte
  by_cases h1 : isUnreserved b
  · rw [if_pos h1, List.cons_append, List.nil_append]
    have hb37 : ¬ b = 37 := by rintro rfl; simp [isUnreserved] at h1
    have hb43 : ¬ b = 43 := by rintro rfl; simp [isUnreserved] at h1
    rw [queryUnescape_cons, if_neg hb37, if_neg hb43]
  · rw [if_neg h1]
    by_cases h2 : b = 32
    · rw [if_pos h2, List.cons_append, List.nil_append]
      rw [queryUnescape_cons, if_neg (by omega : ¬ (43 : Nat) = 37),
        if_pos (rfl : (43 : Nat) = 43), h2]
    · rw [if_neg h2]
      rw [List.cons_append, List.cons_append, List.cons_append, List.nil_append]
      rw [queryUnescape_cons, if_pos (rfl : (37 : Nat) = 37)]
      show pctDecode (hexDigit (b / 16)) (hexDigit (b % 16)) (queryUnescape rest) =
        (queryUnescape rest).map (fun s => b :: s)
      rw [pctDecode_eq _ _ (b / 16) (b % 16) _
        (hexVal_hexDigit _ (by omega)) (hexVal_hexDigit _ (by omega))]
      rw [Nat.div_add_mod b 16]

/-- Unescaping an escaped string prepends it to whatever the remainder
unescapes to. -/
theorem unescape_escape_append : ∀ (s : ByteStr), (∀ b ∈ s, b < 256) → ∀ rest,
    queryUnescape (queryEscape s ++ rest) = (queryUnescape rest).map (fun t => s ++ t)
  | [], _, rest => by
    rw [queryEscape, List.nil_append]
    cases queryUnescape rest <;> rfl
  | b :: s, h, rest => by
    rw [queryEscape, List.append_assoc]
    rw [unescape_escByte b (h b (List.mem_cons_self b s)) _]
    rw [unescape_escape_append s (fun x hx => h x (List.mem_cons_of_mem b hx)) rest]
    cases queryUnescape rest <;> rfl

/-- `QueryUnescape` inverts `QueryEscape` on well-formed byte strings. -/
theorem unescape_escape (s : ByteStr) (h : ∀ b ∈ s, b < 256) :
    queryUnescape (queryEscape s) = some s := by
  have := unescape_escape_append s h []
  rw [List.append_nil] at this
  rw [this]
  simp [queryUnescape]

/-- `takeWhile` stops exactly at the first failing byte. -/
theorem takeWhile_append_stop (p : Nat → Bool) :
    ∀ (s : ByteStr) (y : Nat) (t : ByteStr), (∀ x ∈ s, p x = true) → p y = false →
      ((s ++ y :: t).takeWhile p) = s
  | [], y, t, _, hy => by simp [List.takeWhile_cons, hy]
  | a :: s, y, t, hs, hy => by
    rw [List.cons_append, List.takeWhile_cons, hs a (List.mem_cons_self a s)]
    rw [takeWhile_append_stop p s y t (fun x hx => hs x (List.mem_cons_of_mem a hx)) hy]
    rw [if_pos rfl]

/-- Dropping past a marked position lands right after it. -/
theorem drop_append_cons : ∀ (s : ByteStr) (y : Nat) (t : ByteStr),
    ((s ++ y :: t).drop (s.length + 1)) = t
  | [], _, _ => rfl
  | a :: s, y, t => by
    rw [List.cons_append, List.length_cons]
    rw [List.drop_succ_cons]
    exact drop_append_cons s y t

/-- `strings.Cut` at the first `=` of an escaped `key=value` segment
recovers the two escaped halves. -/
theorem cutByte_at_eq (k v : ByteStr) (hk : ∀ x ∈ k, x ≠ 61) :
    cutByte 61 (k ++ 61 :: v) = (k, v) := by
  unfold cutByte
  have hpre : ((k ++ 61 :: v).takeWhile (fun b => b != 61)) = k := by
    refine takeWhile_append_stop _ k 61 v (fun x hx => ?_) (by decide)
    simpa using hk x hx
  rw [hpre]
  show (k, (k ++ 61 :: v).drop (k.length + 1)) = (k, v)
  rw [drop_append_cons]

/-- `takeWhile` keeps a fully satisfying list. -/
theorem takeWhile_all (p : Nat → Bool) :
    ∀ (s : ByteStr), (∀ x ∈ s, p x = true) → s.takeWhile p = s
  | [], _ => rfl
  | a :: s, h => by
    rw [List.takeWhile_cons, h a (List.mem_cons_self a s)]
    rw [takeWhile_all p s (fun x hx => h x (List.mem_cons_of_mem a hx))]
    rw [if_pos rfl]

/-- The `Cut` loop on the empty query visits nothing. -/
theorem splitAmp_nil : splitAmp [] = [] := by
  rw [splitAmp.eq_def]
  rfl

/-- Unfolding lemma for `splitAmp` on a nonempty query string. -/
theorem splitAmp_cons (s : ByteStr) (h : s ≠ []) :
    splitAmp s = (s.takeWhile (fun b => b != 38)) ::
      splitAmp (s.drop ((s.takeWhile (fun b => b != 38)).length + 1)) := by
  rw [splitAmp.eq_def, dif_neg h]

/-- Splitting on `&` undoes joining with `&`, for nonempty `&`-free
segments. -/
theorem splitAmp_joinAmp : ∀ (segs : List ByteStr),
    (∀ t ∈ segs, t ≠ [] ∧ ∀ x ∈ t, x ≠ 38) → splitAmp (joinAmp segs) = segs
  | [], _ => by rw [joinAmp]; exact splitAmp_nil
  | [s], h => by
    rw [joinAmp]
    obtain ⟨hne, hfree⟩ := h s (List.mem_singleton_self s)
    rw [splitAmp_cons s hne]
    rw [takeWhile_all _ s (fun x hx => by simpa using hfree x hx)]
    rw [List.drop_eq_nil_of_le (by omega)]
    rw [splitAmp_nil]
  | s :: s' :: rest, h => by
    rw [show joinAmp (s :: s' :: rest) = s ++ 38 :: joinAmp (s' :: rest) from rfl]
    obtain ⟨hne, hfree⟩ := h s (List.mem_cons_self s _)
    have hjoin : splitAmp (s ++ 38 :: joinAmp (s' :: rest)) =
        s :: splitAmp (joinAmp (s' :: rest)) := by
      rw [splitAmp_cons _ (by simp)]
      rw [takeWhile_append_stop _ s 38 _ (fun x hx => by simpa using hfree x hx) (by decide)]
      rw [drop_append_cons]
    rw [hjoin, splitAmp_joinAmp (s' :: rest) (fun t ht => h t (List.mem_cons_of_mem s ht))]

/-- Appending a value under a key absent from the map adds a fresh entry
at the end. -/
theorem addVal_fresh (k v : ByteStr) : ∀ (acc : Values), k ∉ keysOf acc →
    addVal k v acc = acc ++ [(k, [v])]
  | [], _ => rfl
  | (k', vs) :: acc, h => by
    have hk : ¬ k' = k := fun he => h (by simp [keysOf, he])
    rw [addVal, if_neg hk, List.cons_append]
    rw [addVal_fresh k v acc (fun hm => h (by simp [keysOf] at hm ⊢; exact Or.inr hm))]

/-- Appending a value under the key of the final entry extends that
entry's slice. -/
theorem addVal_last (k v : ByteStr) : ∀ (acc : Values) (vs : List ByteStr),
    k ∉ keysOf acc → addVal k v (acc ++ [(k, vs)]) = acc ++ [(k, vs ++ [v])]
  | [], vs, _ => by simp [addVal]
  | (k', vs') :: acc, vs, h => by
    have hk : ¬ k' = k := fun he => h (by simp [keysOf, he])
    rw [List.cons_append, addVal, if_neg hk, List.cons_append]
    rw [addVal_last k v acc vs (fun hm => h (by simp [keysOf] at hm ⊢; exact Or.inr hm))]

/-- One parse step on a well-formed `key=value` segment is exactly
`addVal`. -/
theorem parseStep_good (acc : Values) (k v : ByteStr)
    (hk : ∀ x ∈ k, x < 256) (hv : ∀ x ∈ v, x < 256) :
    parseStep acc (queryEscape k ++ 61 :: queryEscape v) = addVal k v acc := by
  have h61 : ∀ x ∈ queryEscape k, x ≠ 61 := fun x hx => (queryEscape_ne_sep k x hx).2.2
  unfold parseStep
  rw [if_neg ?no59, if_neg (by simp)]
  case no59 =>
    intro hmem
    rcases List.mem_append.mp hmem with h | h
    · exact (queryEscape_ne_sep k 59 h).2.1 rfl
    · rcases List.mem_cons.mp h with h' | h'
      · omega
      · exact (queryEscape_ne_sep v 59 h').2.1 rfl
  rw [cutByte_at_eq (queryEscape k) (queryEscape v) h61]
  show (match queryUnescape (queryEscape k), queryUnescape (queryEscape v) with
    | some k', some v' => addVal k' v' acc
    | _, _ => acc) = addVal k v acc
  rw [unescape_escape k hk, unescape_escape v hv]

/-- Folding the parse step over the remaining segments of one entry keeps
extending its final slice. -/
theorem foldl_entrySegs_tail (k : ByteStr) (hk : ∀ x ∈ k, x < 256) :
    ∀ (vs' : List ByteStr) (acc : Values) (vs0 : List ByteStr),
      k ∉ keysOf acc → (∀ v ∈ vs', ∀ x ∈ v, x < 256) →
      List.foldl parseStep (acc ++ [(k, vs0)])
          (vs'.map fun v => queryEscape k ++ 61 :: queryEscape v) =
        acc ++ [(k, vs0 ++ vs')]
  | [], acc, vs0, _, _ => by simp
  | v :: vs', acc, vs0, hacc, hb => by
    rw [List.map_cons, List.foldl_cons]
    rw [parseStep_good (acc ++ [(k, vs0)]) k v hk (hb v (List.mem_cons_self v vs'))]
    rw [addVal_last k v acc vs0 hacc]
    rw [foldl_entrySegs_tail k hk vs' acc (vs0 ++ [v]) hacc
      (fun w hw => hb w (List.mem_cons_of_mem v hw))]
    simp

/-- Folding the parse step over one entry's segments appends the entry. -/
theorem foldl_entrySegs (k : ByteStr) (vs : List ByteStr) (acc : Values)
    (hk : ∀ x ∈ k, x < 256) (hvs : ∀ v ∈ vs, ∀ x ∈ v, x < 256) (hne : vs ≠ [])
    (hacc : k ∉ keysOf acc) :
    List.foldl parseStep acc (entrySegs (k, vs)) = acc ++ [(k, vs)] := by
  match vs, hne with
  | v :: vs', _ =>
    show List.foldl parseStep acc
      ((v :: vs').map fun w => queryEscape k ++ 61 :: queryEscape w) = _
    rw [List.map_cons, List.foldl_cons]
    rw [parseStep_good acc k v hk (hvs v (List.mem_cons_self v vs'))]
    rw [addVal_fresh k v acc hacc]
    rw [foldl_entrySegs_tail k hk vs' acc [v] hacc
      (fun w hw => hvs w (List.mem_cons_of_mem v hw))]
    simp

/-- Folding the parse step over all segments of a map with distinct keys
appends the whole map. -/
theorem foldl_allSegs : ∀ (L : Values) (acc : Values),
    (∀ e ∈ L, e.1 ∉ keysOf acc) → (keysOf L).Nodup →
    (∀ e ∈ L, (∀ x ∈ e.1, x < 256) ∧ (∀ v ∈ e.2, ∀ x ∈ v, x < 256) ∧ e.2 ≠ []) →
    List.foldl parseStep acc (allSegs L) = acc ++ L
  | [], acc, _, _, _ => by simp [allSegs]
  | (k, vs) :: L, acc, hdis, hnd, hwf => by
    rw [allSegs, List.foldl_append]
    obtain ⟨hk, hvs, hne⟩ := hwf (k, vs) (List.mem_cons_self _ L)
    rw [foldl_entrySegs k vs acc hk hvs hne (hdis (k, vs) (List.mem_cons_self _ L))]
    have hkfresh : k ∉ keysOf L := by
      have : keysOf ((k, vs) :: L) = k :: keysOf L := rfl
      rw [this] at hnd
      exact (List.nodup_cons.mp hnd).1
    rw [foldl_allSegs L (acc ++ [(k, vs)]) ?disj ?nodup
      (fun e he => hwf e (List.mem_cons_of_mem _ he))]
    · simp
    case disj =>
      intro e he hmem
      have hkeys : keysOf (acc ++ [(k, vs)]) = keysOf acc ++ [k] := by
        simp [keysOf]
      rw [hkeys] at hmem
      rcases List.mem_append.mp hmem with h | h
      · exact hdis e (List.mem_cons_of_mem _ he) h
      · have : e.1 = k := by simpa using h
        exact hkfresh (this ▸ List.mem_map_of_mem Prod.fst he)
    case nodup =>
      have : keysOf ((k, vs) :: L) = k :: keysOf L := rfl
      rw [this] at hnd
      exact (List.nodup_cons.mp hnd).2

/-- Every encoded segment is nonempty and free of the separator `&`. -/
theorem allSegs_wf : ∀ (L : Values), ∀ t ∈ allSegs L, t ≠ [] ∧ ∀ x ∈ t, x ≠ 38
  | [], t, ht => by simp [allSegs] at ht
  | e :: L, t, ht => by
    rw [allSegs] at ht
    rcases List.mem_append.mp ht with h | h
    · obtain ⟨v, _, rfl⟩ := List.mem_map.mp h
      refine ⟨by simp, fun x hx => ?_⟩
      rcases List.mem_append.mp hx with h' | h'
      · exact (queryEscape_ne_sep e.1 x h').1
      · rcases List.mem_cons.mp h' with h'' | h''
        · omega
        · exact (queryEscape_ne_sep v x h'').1
    · exact allSegs_wf L t h

/-- Parsing the encoding of a map with distinct keys, bounded bytes, and
nonempty value slices recovers the map exactly (up to the key sort). -/
theorem parseQuery_encodeList (L : Values) (hnd : (keysOf L).Nodup)
    (hwf : ∀ e ∈ L, (∀ x ∈ e.1, x < 256) ∧ (∀ v ∈ e.2, ∀ x ∈ v, x < 256) ∧ e.2 ≠ []) :
    parseQuery (joinAmp (allSegs L)) = L := by
  unfold parseQuery
  rw [splitAmp_joinAmp (allSegs L) (allSegs_wf L)]
  have := foldl_allSegs L [] (by intro e _ hmem; simp [keysOf] at hmem) hnd hwf
  rw [this, List.nil_append]

/-- Inserting into the sorted list is a permutation of consing. -/
theorem insertByKey_perm (e : ByteStr × List ByteStr) :
    ∀ (l : Values), List.Perm (insertByKey e l) (e :: l)
  | [] => List.Perm.refl _
  | f :: l => by
    rw [insertByKey]
    split
    · exact List.Perm.refl _
    · exact ((insertByKey_perm e l).cons f).trans (List.Perm.swap e f l)

/-- The key sort permutes the entry list. -/
theorem sortByKey_perm : ∀ (l : Values), List.Perm (sortByKey l) l
  | [] => List.Perm.refl _
  | e :: l => (insertByKey_perm e (sortByKey l)).trans ((sortByKey_perm l).cons e)

/-- Lookup in a map with distinct keys is invariant under permutation. -/
theorem lookupVals_perm {l l' : Values} (p : List.Perm l l') :
    (keysOf l).Nodup → ∀ k, lookupVals k l = lookupVals k l' := by
  induction p with
  | nil => intro _ k; rfl
  | cons x p ih =>
    intro h k
    obtain ⟨a, b⟩ := x
    rw [lookupVals, lookupVals]
    by_cases hak : a = k
    · rw [if_pos hak, if_pos hak]
    · rw [if_neg hak, if_neg hak]
      exact ih (by simpa [keysOf] using List.Nodup.of_cons (by simpa [keysOf] using h)) k
  | swap x y l =>
    intro h k
    obtain ⟨a, b⟩ := x
    obtain ⟨c, d⟩ := y
    have hac : ¬ c = a := by
      simp only [keysOf, List.map_cons, List.nodup_cons, List.mem_cons] at h
      exact fun he => h.1 (Or.inl he)
    simp only [lookupVals]
    by_cases hck : c = k <;> by_cases hak : a = k
    · exact absurd (hck.trans hak.symm) hac
    · simp [hck, hak]
    · simp [hck, hak]
    · simp [hck, hak]
  | trans p1 p2 ih1 ih2 =>
    intro h k
    rw [ih1 h k, ih2 ((p1.map Prod.fst).nodup h) k]

/-- Keys after a `Set` are the old keys plus possibly the new key. -/
theorem mem_keysOf_valuesSet (k v x : ByteStr) :
    ∀ (V : Values), x ∈ keysOf (valuesSet k v V) → x ∈ keysOf V ∨ x = k
  | [] => by intro h; simp [valuesSet, keysOf] at h; exact Or.inr h
  | (k', vs) :: V => by
    intro h
    rw [valuesSet] at h
    split at h
    · next he =>
      simp only [keysOf, List.map_cons, List.mem_cons] at h ⊢
      rcases h with rfl | h
      · exact Or.inr rfl
      · exact Or.inl (Or.inr h)
    · next he =>
      simp only [keysOf, List.map_cons, List.mem_cons] at h ⊢
      rcases h with rfl | h
      · exact Or.inl (Or.inl rfl)
      · rcases mem_keysOf_valuesSet k v x V h with h' | h'
        · exact Or.inl (Or.inr (by simpa [keysOf] using h'))
        · exact Or.inr h'

/-- `Set` preserves distinctness of keys. -/
theorem keysOf_valuesSet_nodup (k v : ByteStr) :
    ∀ (V : Values), (keysOf V).Nodup → (keysOf (valuesSet k v V)).Nodup
  | [] => by intro _; simp [valuesSet, keysOf]
  | (k', vs) :: V => by
    intro h
    rw [valuesSet]
    split
    · next he =>
      simp only [keysOf, List.map_cons, List.nodup_cons] at h ⊢
      exact ⟨he ▸ h.1, h.2⟩
    · next he =>
      simp only [keysOf, List.map_cons, List.nodup_cons] at h ⊢
      refine ⟨fun hmem => ?_, keysOf_valuesSet_nodup k v V h.2⟩
      rcases mem_keysOf_valuesSet k v k' V (by simpa [keysOf] using hmem) with h' | h'
      · exact h.1 (by simpa [keysOf] using h')
      · exact he h'

/-- `Set` preserves any entry property the new entry satisfies. -/
theorem valuesSet_entries (k v : ByteStr) (P : ByteStr × List ByteStr → Prop)
    (hP : P (k, [v])) : ∀ (V : Values), (∀ e ∈ V, P e) → ∀ e ∈ valuesSet k v V, P e
  | [] => by
    intro _ e he
    simp only [valuesSet, List.mem_singleton] at he
    exact he ▸ hP
  | (k', vs) :: V => by
    intro hV e he
    rw [valuesSet] at he
    split at he
    · rcases List.mem_cons.mp he with rfl | h
      · exact hP
      · exact hV e (List.mem_cons_of_mem _ h)
    · rcases List.mem_cons.mp he with rfl | h
      · exact hV _ (List.mem_cons_self _ _)
      · exact valuesSet_entries k v P hP V (fun f hf => hV f (List.mem_cons_of_mem _ hf)) e h

/-- Folding `Set` over a map of bounded byte strings yields a values map
with distinct keys, bounded bytes, and nonempty (singleton) slices. -/
theorem foldValues_wf : ∀ (m : List (ByteStr × ByteStr)) (V : Values),
    (∀ p ∈ m, (∀ x ∈ p.1, x < 256) ∧ (∀ x ∈ p.2, x < 256)) →
    (keysOf V).Nodup →
    (∀ e ∈ V, (∀ x ∈ e.1, x < 256) ∧ (∀ v ∈ e.2, ∀ x ∈ v, x < 256) ∧ e.2 ≠ []) →
    (keysOf (m.foldl (fun v p => valuesSet p.1 p.2 v) V)).Nodup ∧
      (∀ e ∈ m.foldl (fun v p => valuesSet p.1 p.2 v) V,
        (∀ x ∈ e.1, x < 256) ∧ (∀ v ∈ e.2, ∀ x ∈ v, x < 256) ∧ e.2 ≠ [])
  | [], V, _, hnd, hwf => ⟨hnd, hwf⟩
  | p :: m, V, hb, hnd, hwf => by
    rw [List.foldl_cons]
    refine foldValues_wf m (valuesSet p.1 p.2 V)
      (fun q hq => hb q (List.mem_cons_of_mem _ hq))
      (keysOf_valuesSet_nodup _ _ V hnd)
      (valuesSet_entries p.1 p.2 _ ⟨(hb p (List.mem_cons_self _ _)).1, ?_, by simp⟩ V hwf)
    intro v hv
    rw [List.mem_singleton] at hv
    exact hv ▸ (hb p (List.mem_cons_self _ _)).2

/-- Parsing the empty query yields the empty map. -/
theorem parseQuery_nil : parseQuery [] = [] := by
  unfold parseQuery
  rw [splitAmp_nil]
  rfl

/-! ## Claims -/

/-- C1 (amended): once an option records an error into the context's error
slot, the pipeline halts immediately: the final context is exactly the
state left by the error-recording option (no option after it is invoked,
whatever the suffix `s` is), and the surfaced error is that first recorded
error, wrapped as an option-execution error. -/
theorem c1_pipeline_halts_on_first_error (u : URL) (p s : List Opt) (o : Opt) (e : GoErr)
    (hp : (runOpts (initCtx u) p).2 = none)
    (hrec : (o (runOpts (initCtx u) p).1).err = some e) :
    runOpts (initCtx u) (p ++ o :: s) =
      (o (runOpts (initCtx u) p).1, some (GoErr.optionExec e)) := by
  rw [runOpts_append_ok p (initCtx u) (o :: s) hp]
  simp only [runOpts]
  rw [hrec]

/-- C1 counterexample: with the options `[WithPostJSON (failing value),
WithMethod "PUT"]`, the claim says the second option is still invoked, so
the method would be `"PUT"`; in fact the pipeline returns with the method
still `"GET"` — the option after the error-recording one is never run
(applying it would have set `"PUT"`). -/
theorem c1_counterexample :
    (runOpts (initCtx sampleURL)
        [withPostJSON (Except.error (GoErr.external 7)), withMethod "PUT"]).1.request.method
        = "GET" ∧
      "GET" ≠ "PUT" ∧
      (withMethod "PUT"
        (runOpts (initCtx sampleURL)
          [withPostJSON (Except.error (GoErr.external 7)), withMethod "PUT"]).1).request.method
        = "PUT" :=
  ⟨rfl, by decide, rfl⟩

/-- C1 witness: the amended theorem at a concrete pipeline: one clean
option, then a failing `WithPostJSON`, then a skipped `WithMethod`. -/
theorem c1_witness :
    runOpts (initCtx sampleURL)
        ([withMethod "PUT"] ++
          withPostJSON (Except.error (GoErr.external 7)) :: [withMethod "DELETE"]) =
      (withPostJSON (Except.error (GoErr.external 7))
          (runOpts (initCtx sampleURL) [withMethod "PUT"]).1,
        some (GoErr.optionExec (GoErr.jsonMarshal (GoErr.external 7)))) :=
  c1_pipeline_halts_on_first_error sampleURL [withMethod "PUT"] [withMethod "DELETE"]
    (withPostJSON (Except.error (GoErr.external 7))) (GoErr.jsonMarshal (GoErr.external 7))
    rfl rfl

/-- C3: when the option pipeline records an error, both `do` (hence `Do`)
and `DoBytes` return the wrapped construction error, the error wraps the
recorded cause, and no request is ever dispatched to the transport (no
network I/O). -/
theorem c3_construction_error_aborts (c : Client) (tr : Transport) (u : URL)
    (opt : List Opt) (w : GoErr)
    (h : (runOpts (initCtx u) (c.baseline ++ opt)).2 = some w) :
    clientDo c tr u opt = .failed w ∧
      (∃ cause, w = GoErr.optionExec cause) ∧
      (∀ ctx req res, clientDo c tr u opt ≠ .dispatched ctx req res) ∧
      clientDoBytes c tr u opt = ([], 0, some w) := by
  have hdo : clientDo c tr u opt = .failed w := by
    unfold clientDo
    cases hres : runOpts (initCtx u) (c.baseline ++ opt) with
    | mk ctx e =>
      rw [hres] at h
      cases e with
      | none => exact Option.noConfusion h
      | some w' => cases h; rfl
  refine ⟨hdo, runOpts_err_wrapped _ _ _ h, ?_, ?_⟩
  · intro ctx req res hcontra
    rw [hdo] at hcontra
    exact DoOutcome.noConfusion hcontra
  · unfold clientDoBytes
    rw [hdo]

/-- C3 witness: a failing `WithPostJSON` as the only call-site option, with
a transport that would answer 200 if it were reached. -/
theorem c3_witness :
    clientDo ⟨[]⟩ (fun _ => Except.ok ⟨200, [], none⟩) sampleURL
        [withPostJSON (Except.error (GoErr.external 3))] =
      .failed (GoErr.optionExec (GoErr.jsonMarshal (GoErr.external 3))) ∧
      (∃ cause,
        GoErr.optionExec (GoErr.jsonMarshal (GoErr.external 3)) = GoErr.optionExec cause) ∧
      (∀ ctx req res,
        clientDo ⟨[]⟩ (fun _ => Except.ok ⟨200, [], none⟩) sampleURL
            [withPostJSON (Except.error (GoErr.external 3))] ≠
          .dispatched ctx req res) ∧
      clientDoBytes ⟨[]⟩ (fun _ => Except.ok ⟨200, [], none⟩) sampleURL
          [withPostJSON (Except.error (GoErr.external 3))] =
        ([], 0, some (GoErr.optionExec (GoErr.jsonMarshal (GoErr.external 3)))) :=
  c3_construction_error_aborts ⟨[]⟩ (fun _ => Except.ok ⟨200, [], none⟩) sampleURL
    [withPostJSON (Except.error (GoErr.external 3))]
    (GoErr.optionExec (GoErr.jsonMarshal (GoErr.external 3))) rfl

/-- C7: in the absence of a recorded error, the pipeline applies exactly
the client's baseline options followed by the call-site options, as a
plain sequential left fold in that order (no reordering, deduplication, or
skipping), and `do` dispatches the request finalized from precisely that
fold. -/
theorem c7_options_applied_in_order (c : Client) (tr : Transport) (u : URL)
    (opt : List Opt)
    (h : (runOpts (initCtx u) (c.baseline ++ opt)).2 = none) :
    runOpts (initCtx u) (c.baseline ++ opt) =
        (applyAll (initCtx u) (c.baseline ++ opt), none) ∧
      clientDo c tr u opt =
        .dispatched (applyAll (initCtx u) (c.baseline ++ opt))
          (finalize (applyAll (initCtx u) (c.baseline ++ opt)))
          (tr (finalize (applyAll (initCtx u) (c.baseline ++ opt)))) := by
  have hrun := runOpts_ok_eq (c.baseline ++ opt) (initCtx u) h
  refine ⟨hrun, ?_⟩
  unfold clientDo
  rw [hrun]

/-- C7 witness: a client with one baseline option and one call-site
option; the pipeline equals the two-option fold. -/
theorem c7_witness :
    runOpts (initCtx sampleURL) (Client.baseline ⟨[withMethod "PUT"]⟩ ++ [withCheckStatus true]) =
        (applyAll (initCtx sampleURL)
          (Client.baseline ⟨[withMethod "PUT"]⟩ ++ [withCheckStatus true]), none) ∧
      clientDo ⟨[withMethod "PUT"]⟩ (fun _ => Except.error 5) sampleURL [withCheckStatus true] =
        .dispatched
          (applyAll (initCtx sampleURL)
            (Client.baseline ⟨[withMethod "PUT"]⟩ ++ [withCheckStatus true]))
          (finalize (applyAll (initCtx sampleURL)
            (Client.baseline ⟨[withMethod "PUT"]⟩ ++ [withCheckStatus true])))
          ((fun _ => Except.error 5) (finalize (applyAll (initCtx sampleURL)
            (Client.baseline ⟨[withMethod "PUT"]⟩ ++ [withCheckStatus true])))) :=
  c7_options_applied_in_order ⟨[withMethod "PUT"]⟩ (fun _ => Except.error 5) sampleURL
    [withCheckStatus true] rfl

/-- C9: `Post` equals `Do` with the method-override and body-attach options
prepended ahead of the caller's options, and `PostBytes` likewise equals
`DoBytes` with the same two options prepended. -/
theorem c9_post_is_do_composition (c : Client) (tr : Transport) (u : URL)
    (contentType : String) (body : BodySrc) (opt : List Opt) :
    clientPost c tr u contentType body opt =
        clientDoResp c tr u ([withMethod "POST", withBodyReader contentType body] ++ opt) ∧
      clientPostBytes c tr u contentType body opt =
        clientDoBytes c tr u ([withMethod "POST", withBodyReader contentType body] ++ opt) :=
  ⟨rfl, rfl⟩

/-- C5: attaching a buffered byte sequence, a byte-backed reader, or a
string-backed reader sets the content length to the exact number of unread
bytes at attach time and installs a replay snapshot (the reader's cursor
state value-copied at attach time) whose fresh stream yields exactly those
unread bytes. -/
theorem c5_buffered_bodies_replayable (req : Request) :
    (∀ data : ByteStr,
        (setBody req (.buffer data)).contentLength = (data.length : Int) ∧
        (setBody req (.buffer data)).getBody = some ⟨data, 0⟩ ∧
        readerRemaining ⟨data, 0⟩ = data) ∧
      (∀ r : ByteReader,
        (setBody req (.bytesReader r)).contentLength = ((readerRemaining r).length : Int) ∧
        (setBody req (.bytesReader r)).getBody = some r) ∧
      (∀ r : ByteReader,
        (setBody req (.stringsReader r)).contentLength = ((readerRemaining r).length : Int) ∧
        (setBody req (.stringsReader r)).getBody = some r) := by
  refine ⟨fun data => ⟨rfl, rfl, rfl⟩, fun r => ⟨?_, rfl⟩, fun r => ⟨?_, rfl⟩⟩ <;>
    simp [setBody, readerLen, readerRemaining, List.length_drop]

/-- C8: `WithPostJSON` on a failed serialization records the wrapped
construction error and leaves the request, query values, and flag exactly
as they were; on success it sets method POST, `Content-Type:
application/json`, and attaches the bytes as a buffered, replayable body
of known length. -/
theorem c8_post_json (o : OptionsCtx) :
    (∀ e : GoErr,
        (withPostJSON (.error e) o).request = o.request ∧
        (withPostJSON (.error e) o).values = o.values ∧
        (withPostJSON (.error e) o).checkStatus = o.checkStatus ∧
        (withPostJSON (.error e) o).err = some (GoErr.jsonMarshal e)) ∧
      (∀ data : ByteStr,
        (withPostJSON (.ok data) o).request.method = "POST" ∧
        headerGet "Content-Type" (withPostJSON (.ok data) o).request.header =
          some "application/json" ∧
        (withPostJSON (.ok data) o).request.body = some (.buffer data) ∧
        (withPostJSON (.ok data) o).request.contentLength = (data.length : Int) ∧
        (withPostJSON (.ok data) o).request.getBody = some ⟨data, 0⟩ ∧
        (withPostJSON (.ok data) o).err = o.err) := by
  refine ⟨fun e => ⟨rfl, rfl, rfl, rfl⟩, fun data => ⟨rfl, ?_, rfl, rfl, rfl, rfl⟩⟩
  exact headerGet_set "Content-Type" "application/json" _

/-- C2 counterexample: attaching a generic stream to a request that
previously carried a buffered body leaves the old content length (3, not
unknown) and the old replay snapshot in place, so the resulting request
still has replay capability — refuting the claim that attaching a
non-buffered stream always yields an unknown length and no replay. -/
theorem c2_counterexample :
    ((setBody (setBody (newRequest sampleURL) (.buffer [1, 2, 3]))
          (.generic 0 [9])).getBody ≠ none) ∧
      (setBody (setBody (newRequest sampleURL) (.buffer [1, 2, 3]))
          (.generic 0 [9])).contentLength = 3 ∧
      ¬ lengthUnknown (setBody (setBody (newRequest sampleURL) (.buffer [1, 2, 3]))
          (.generic 0 [9])) ∧
      (setBody (setBody (newRequest sampleURL) (.buffer [1, 2, 3]))
          (.generic 0 [9])).body = some (.generic 0 [9]) := by
  refine ⟨by decide, rfl, ?_, rfl⟩
  intro hu
  rcases hu with h1 | ⟨h2, _⟩
  · exact absurd h1 (by decide)
  · exact absurd h2 (by decide)

/-- C2 (amended): attaching a generic (non-buffered) stream sets it as the
body but leaves the declared content length and the replay hook exactly as
they were; in particular, on a request with no previously attached body
(content length `0`, no replay hook), the result has no replay capability
and its length is unknown in the platform's reading (`0` with a non-nil
body). -/
theorem c2_generic_stream_no_replay (req : Request) (tag : Nat) (content : ByteStr) :
    ((setBody req (.generic tag content)).contentLength = req.contentLength ∧
        (setBody req (.generic tag content)).getBody = req.getBody ∧
        (setBody req (.generic tag content)).body = some (.generic tag content)) ∧
      (req.getBody = none → req.contentLength = 0 →
        (setBody req (.generic tag content)).getBody = none ∧
          lengthUnknown (setBody req (.generic tag content))) := by
  refine ⟨⟨rfl, rfl, rfl⟩, fun hg hc => ⟨hg, Or.inr ⟨hc, ?_⟩⟩⟩
  intro hb
  exact Option.noConfusion hb

/-- C2 witness: the amended theorem on a fresh base request — a generic
stream attached there yields content length `0` (unknown, given the
non-nil body) and no replay hook. -/
theorem c2_witness :
    (setBody (newRequest sampleURL) (.generic 0 [9])).getBody = none ∧
      lengthUnknown (setBody (newRequest sampleURL) (.generic 0 [9])) :=
  (c2_generic_stream_no_replay (newRequest sampleURL) 0 [9]).2 rfl rfl

/-- C6: serializing the query map accumulated by `WithQuery`
(percent-encoding keys and values, `&`-joined, key-sorted) and then
percent-decoding the resulting query string yields back exactly the
original map: every key looks up to the same value slice.  The statement
is over an arbitrary entry list, so it is independent of entry order. -/
theorem c6_query_roundtrip (m : List (ByteStr × ByteStr))
    (hb : ∀ p ∈ m, (∀ x ∈ p.1, x < 256) ∧ (∀ x ∈ p.2, x < 256)) (k : ByteStr) :
    lookupVals k (parseQuery (valuesEncode ((withQuery m (initCtx sampleURL)).values))) =
      lookupVals k ((withQuery m (initCtx sampleURL)).values) := by
  have hV : (withQuery m (initCtx sampleURL)).values =
      m.foldl (fun v p => valuesSet p.1 p.2 v) [] := by
    show m.foldl (fun v p => valuesSet p.1 p.2 v) (initCtx sampleURL).values = _
    have : (initCtx sampleURL).values = parseQuery [] := rfl
    rw [this, parseQuery_nil]
  rw [hV]
  obtain ⟨hnd, hwf⟩ := foldValues_wf m [] hb (by simp [keysOf]) (by simp)
  have hperm := sortByKey_perm (m.foldl (fun v p => valuesSet p.1 p.2 v) [])
  have hndS : (keysOf (sortByKey (m.foldl (fun v p => valuesSet p.1 p.2 v) []))).Nodup :=
    ((hperm.map Prod.fst).symm).nodup hnd
  have hwfS := fun e he => hwf e (hperm.mem_iff.mp he)
  have henc : valuesEncode (m.foldl (fun v p => valuesSet p.1 p.2 v) []) =
      joinAmp (allSegs (sortByKey (m.foldl (fun v p => valuesSet p.1 p.2 v) []))) := rfl
  rw [henc, parseQuery_encodeList _ hndS hwfS]
  exact lookupVals_perm hperm hndS k

/-- A concrete query map with an ASCII entry (`name=jack`) and a
multi-byte UTF-8 entry. -/
def sampleQueryMap : List (ByteStr × ByteStr) :=
  [([110, 97, 109, 101], [106, 97, 99, 107]), ([228, 189, 160], [230, 177, 137])]

/-- C6 witness: the round trip at the concrete map, looked up at the
multi-byte key. -/
theorem c6_witness :
    lookupVals [228, 189, 160]
        (parseQuery (valuesEncode ((withQuery sampleQueryMap (initCtx sampleURL)).values))) =
      lookupVals [228, 189, 160] ((withQuery sampleQueryMap (initCtx sampleURL)).values) :=
  c6_query_roundtrip sampleQueryMap (by decide) [228, 189, 160]

/-- C10: on a call that replaces the whole request, the dispatched request
is the replacement with its URL query component unconditionally
overwritten by the encoding of the context's values map — the map parsed
from the original `url` argument plus the `WithQueryValue` mutations —
regardless of whatever query string the replacement's own URL carried. -/
theorem c10_withRequest_query_overwritten (c : Client) (tr : Transport) (u : URL)
    (r : Request) (qs1 qs2 : List (ByteStr × ByteStr)) (hc : c.baseline = []) :
    dispatchedReq (clientDo c tr u
        ((qs1.map fun p => withQueryValue p.1 p.2) ++ withRequest r ::
          (qs2.map fun p => withQueryValue p.1 p.2))) =
      some { r with
             url := { r.url with
                      rawQuery := valuesEncode (qs2.foldl (fun v p => valuesSet p.1 p.2 v)
                                    (qs1.foldl (fun v p => valuesSet p.1 p.2 v)
                                      (parseQuery u.rawQuery))) } } := by
  unfold clientDo
  rw [hc, List.nil_append]
  rw [runOpts_qvs_then qs1 _ (initCtx u) rfl]
  rw [runOpts_withRequest r _ _ rfl]
  rw [runOpts_qvs qs2 _ rfl]
  rfl

/-- A concrete replacement request whose own URL carries the query `z=1`. -/
def sampleReplacement : Request :=
  { method := "PUT"
    url := { scheme := "http", host := "h", path := "/p", rawQuery := [122, 61, 49] }
    header := [], body := none, contentLength := 0, getBody := none }

/-- Query mutations `n=a` before and `q=r` after the replacement. -/
def sampleQs1 : List (ByteStr × ByteStr) := [([110], [97])]

/-- See `sampleQs1`. -/
def sampleQs2 : List (ByteStr × ByteStr) := [([113], [114])]

/-- C10 witness: a concrete replacement request carrying its own query
string `z=1`, which the dispatch discards in favour of the encoded values
map. -/
theorem c10_witness :
    dispatchedReq (clientDo ⟨[]⟩ (fun _ => Except.error 5) sampleURL
        ((sampleQs1.map fun p => withQueryValue p.1 p.2) ++ withRequest sampleReplacement ::
          (sampleQs2.map fun p => withQueryValue p.1 p.2))) =
      some { sampleReplacement with
             url := { sampleReplacement.url with
                      rawQuery := valuesEncode (sampleQs2.foldl (fun v p => valuesSet p.1 p.2 v)
                                    (sampleQs1.foldl (fun v p => valuesSet p.1 p.2 v)
                                      (parseQuery sampleURL.rawQuery))) } } :=
  c10_withRequest_query_overwritten ⟨[]⟩ (fun _ => Except.error 5) sampleURL
    sampleReplacement sampleQs1 sampleQs2 rfl

/-- C4: for a drained response, `DoBytes` yields the body bytes and code,
adding a status error (message `"http status code: <code>"`) exactly when
the final flag is set and the code is not 200; and the raw-response path
`Do` never returns a status error, whatever the flag or transport does. -/
theorem c4_status_check (c : Client) (tr : Transport) (u : URL) (opt : List Opt)
    (ctx : OptionsCtx) (resp : Response)
    (h1 : runOpts (initCtx u) (c.baseline ++ opt) = (ctx, none))
    (h2 : tr (finalize ctx) = .ok resp)
    (h3 : resp.readErr = none) :
    clientDoBytes c tr u opt =
        (resp.bodyData, resp.statusCode,
          if ctx.checkStatus && resp.statusCode != 200 then
            some (GoErr.statusCode resp.statusCode)
          else none) ∧
      (∀ (c' : Client) (tr' : Transport) (u' : URL) (opt' : List Opt) (e : GoErr),
        clientDoResp c' tr' u' opt' = .error e → isStatusErr e = false) ∧
      (∀ n : Nat, errMessage (GoErr.statusCode n) = "http status code: " ++ toString n) := by
  refine ⟨?_, ?_, fun n => rfl⟩
  · obtain ⟨scode, sdata, srerr⟩ := resp
    cases h3
    have hdis : clientDo c tr u opt = .dispatched ctx (finalize ctx) (tr (finalize ctx)) := by
      unfold clientDo
      rw [h1]
    unfold clientDoBytes
    rw [hdis, h2]
    simp only []
    by_cases hcond : ctx.checkStatus = true ∧ ¬scode = 200 <;> simp [hcond]
  · intro c' tr' u' opt' e h
    unfold clientDoResp at h
    cases hdo : clientDo c' tr' u' opt' with
    | failed w =>
      rw [hdo] at h
      obtain ⟨cause, hcause⟩ :=
        runOpts_err_wrapped _ _ _ (clientDo_failed_err c' tr' u' opt' w hdo)
      subst hcause
      cases h
      rfl
    | dispatched ctx' req res =>
      rw [hdo] at h
      cases res with
      | error te => cases h; rfl
      | ok resp' => exact Except.noConfusion h

/-- C4 witness: status-check enabled against a transport answering 404
with body `"hello"`: `DoBytes` returns the bytes, the code, and the status
error. -/
theorem c4_witness :
    clientDoBytes ⟨[]⟩ (fun _ => Except.ok ⟨404, [104, 101, 108, 108, 111], none⟩) sampleURL
        [withCheckStatus true] =
      ([104, 101, 108, 108, 111], 404,
        if (withCheckStatus true (initCtx sampleURL)).checkStatus && (404 : Nat) != 200 then
          some (GoErr.statusCode 404)
        else none) :=
  (c4_status_check ⟨[]⟩ (fun _ => Except.ok ⟨404, [104, 101, 108, 108, 111], none⟩) sampleURL
    [withCheckStatus true] (withCheckStatus true (initCtx sampleURL))
    ⟨404, [104, 101, 108, 108, 111], none⟩ rfl rfl rfl).1

end Xreq
